import Mathlib

/-!
Shallow embedding of `crates/interfaces/src/p2p/full_block.rs`: the
single-block fetcher (`FetchFullBlockFuture`) and the range fetcher
(`FetchFullBlockRangeFuture`), together with the `FullBlockClient`
constructors `get_full_block` and `get_full_block_range`.

Modelling choices:
- `H256` hashes are `Nat`; the content-derived hash of a header
  (`seal_slow`) is an executable injective encoding of the header fields,
  standing for Keccak.
- The two in-flight sub-request slots of each future hold the request
  parameters (the hash, or the `HeadersRequest` / hash list); issuing a
  request writes its parameters into the slot, and the inner
  `FullBlockRequest::poll` / `FullBlockRangeRequest::poll` clears the slot
  before handing the response to the state machine, exactly as the source
  sets `self.header = None` (resp. `self.headers = None`) before returning
  the ready result.
- `report_bad_message` is fire-and-forget; the model logs the reported
  peer ids in a `penalized` list (newest first).
- One turn of the outer `poll` loop processes one ready sub-response; a
  whole execution is a fold of the step function over the list of
  responses the environment delivers, checking `take_block` /
  `take_blocks` after each step as the source loop does.
-/

namespace FullBlock

/-- Block header (`reth_primitives::Header`): the block number plus the
remaining fields, abstracted as `parentHash` and an opaque `extra`. -/
structure Header where
  number : Nat
  parentHash : Nat
  extra : Nat
deriving DecidableEq, Repr

/-- The content-derived hash of a header, recomputed locally
(`Header::seal_slow` hashing). An injective pairing of the fields stands
for Keccak-256. -/
def hashHeader (h : Header) : Nat :=
  Nat.pair h.number (Nat.pair h.parentHash h.extra)

/-- `SealedHeader`: a header with its recomputed hash attached. -/
structure SealedHeader where
  header : Header
  hash : Nat
deriving DecidableEq, Repr

instance : Inhabited SealedHeader := ⟨⟨⟨0, 0, 0⟩, hashHeader ⟨0, 0, 0⟩⟩⟩

/-- `Header::seal_slow`: recompute the hash and attach it. -/
def Header.seal_slow (h : Header) : SealedHeader :=
  ⟨h, hashHeader h⟩

/-- `reth_primitives::BlockBody`. -/
structure BlockBody where
  transactions : List Nat
  ommers : List Header
  withdrawals : Option (List Nat)
deriving DecidableEq, Repr

/-- `SealedBlock`: one sealed header paired with one body. -/
structure SealedBlock where
  header : SealedHeader
  body : BlockBody
deriving DecidableEq, Repr

instance : Inhabited BlockBody := ⟨⟨[], [], none⟩⟩

instance : Inhabited SealedBlock := ⟨⟨default, default⟩⟩

/-- `SealedBlock::new`. -/
def SealedBlock.new (h : SealedHeader) (b : BlockBody) : SealedBlock :=
  ⟨h, b⟩

/-- `PeerRequestResult<T>`: either a response envelope (`WithPeerId`:
responder id plus payload) or a transport-level error. -/
inductive PeerResult (T : Type) where
  | ok (peer : Nat) (data : T)
  | err
deriving DecidableEq, Repr

/-! ## Single-block fetch (`FetchFullBlockFuture`) -/

/-- State of `FetchFullBlockFuture`. The request slots hold the hash the
in-flight `get_header` / `get_block_body` call was issued with. -/
structure FetchFullBlockFuture where
  hash : Nat
  requestHeader : Option Nat
  requestBody : Option Nat
  header : Option SealedHeader
  body : Option BlockBody
  penalized : List Nat
deriving DecidableEq, Repr

/-- `FullBlockClient::get_full_block`: both sub-requests are launched at
construction. -/
def get_full_block (hash : Nat) : FetchFullBlockFuture :=
  { hash := hash
    requestHeader := some hash
    requestBody := some hash
    header := none
    body := none
    penalized := [] }

/-- `ResponseResult`: which sub-request of the single fetch completed. -/
inductive ResponseResult where
  | header (res : PeerResult (Option Header))
  | body (res : PeerResult (Option BlockBody))
deriving DecidableEq, Repr

/-- The `ResponseResult::Header` arm of `FetchFullBlockFuture::poll`:
seal the header, penalize on hash mismatch, store on match, and re-issue
the header request when the slot is still empty. -/
def stepHeader (st : FetchFullBlockFuture) (res : PeerResult (Option Header)) :
    FetchFullBlockFuture :=
  let st1 := { st with requestHeader := none }
  let st2 :=
    match res with
    | .ok peer maybeHeader =>
      match maybeHeader.map Header.seal_slow with
      | some header =>
        if header.hash ≠ st1.hash then
          { st1 with penalized := peer :: st1.penalized }
        else
          { st1 with header := some header }
      | none => st1
    | .err => st1
  if st2.header.isNone then { st2 with requestHeader := some st2.hash } else st2

/-- The `ResponseResult::Body` arm of `FetchFullBlockFuture::poll`: store
whatever payload arrived (`into_data`), and re-issue the body request when
the slot is still empty. -/
def stepBody (st : FetchFullBlockFuture) (res : PeerResult (Option BlockBody)) :
    FetchFullBlockFuture :=
  let st1 := { st with requestBody := none }
  let st2 :=
    match res with
    | .ok _peer maybeBody => { st1 with body := maybeBody }
    | .err => st1
  if st2.body.isNone then { st2 with requestBody := some st2.hash } else st2

/-- `FetchFullBlockFuture::take_block`: the assembled block once both
halves are present. -/
def take_block (st : FetchFullBlockFuture) : Option SealedBlock :=
  match st.header, st.body with
  | some h, some b => some (SealedBlock.new h b)
  | _, _ => none

/-- One turn of the single-fetch poll loop on one ready sub-response. -/
def singleStep (st : FetchFullBlockFuture) : ResponseResult → FetchFullBlockFuture
  | .header res => stepHeader st res
  | .body res => stepBody st res

/-- The outer poll loop of `FetchFullBlockFuture`: fold the delivered
responses, returning the assembled block as soon as `take_block` is
`some` (the future is consumed at that point). -/
def runSingle :
    FetchFullBlockFuture → List ResponseResult →
      Option SealedBlock × FetchFullBlockFuture
  | st, [] => (none, st)
  | st, r :: rs =>
    let st1 := singleStep st r
    match take_block st1 with
    | some blk => (some blk, st1)
    | none => runSingle st1 rs

/-! ## Range fetch (`FetchFullBlockRangeFuture`) -/

/-- `HeadersDirection`. -/
inductive HeadersDirection where
  | rising
  | falling
deriving DecidableEq, Repr

/-- `HeadersRequest`: parameters of a headers-range request. -/
structure HeadersRequest where
  start : Nat
  limit : Nat
  direction : HeadersDirection
deriving DecidableEq, Repr

/-- State of `FetchFullBlockRangeFuture`. `requestBodies` holds the hash
list the in-flight `get_block_bodies` call was issued with. -/
structure FetchFullBlockRangeFuture where
  hash : Nat
  count : Nat
  requestHeaders : Option HeadersRequest
  requestBodies : Option (List Nat)
  headers : Option (List SealedHeader)
  bodies : Option (List BlockBody)
  penalized : List Nat
deriving DecidableEq, Repr

/-- `FullBlockClient::get_full_block_range`, exactly as written in the
source: `if count == 1 { None } else { Some(client.get_block_bodies(vec![hash])) }`
for the bodies slot, and a falling headers request for the headers slot. -/
def get_full_block_range (hash : Nat) (count : Nat) : FetchFullBlockRangeFuture :=
  { hash := hash
    count := count
    requestHeaders := some ⟨hash, count, .falling⟩
    requestBodies := if count = 1 then none else some [hash]
    headers := none
    bodies := none
    penalized := [] }

/-- `FetchFullBlockRangeFuture::range_block_hashes`. -/
def range_block_hashes (st : FetchFullBlockRangeFuture) : Option (List Nat) :=
  st.headers.map (fun hs => hs.map (fun h => h.hash))

/-- `FetchFullBlockRangeFuture::take_blocks`: zip headers with bodies
positionally once both are present. -/
def take_blocks (st : FetchFullBlockRangeFuture) : Option (List SealedBlock) :=
  match st.headers, st.bodies with
  | some hs, some bs => some (List.zipWith SealedBlock.new hs bs)
  | _, _ => none

/-- `FetchFullBlockRangeFuture::has_bodies_request_started`, exactly as
written in the source: `self.request.bodies.is_none() && self.bodies.is_none()`. -/
def has_bodies_request_started (st : FetchFullBlockRangeFuture) : Bool :=
  st.requestBodies.isNone && st.bodies.isNone

/-- The sort key of `headers.sort_unstable_by_key(|h| Reverse(h.number))`:
descending block number. -/
def headerGE (a b : SealedHeader) : Prop :=
  b.header.number ≤ a.header.number

instance : DecidableRel headerGE := fun _ _ => Nat.decLe _ _

instance : IsTotal SealedHeader headerGE :=
  ⟨fun a b => Nat.le_total b.header.number a.header.number⟩

instance : IsTrans SealedHeader headerGE :=
  ⟨fun _ _ _ h1 h2 => Nat.le_trans h2 h1⟩

/-- `sort_unstable_by_key(|h| Reverse(h.number))`: sort headers from
highest to lowest block number. -/
def sortHeaders (hs : List SealedHeader) : List SealedHeader :=
  List.insertionSort headerGE hs

/-- The `RangeResponseResult::Header` arm of
`FetchFullBlockRangeFuture::poll`: seal all headers, check emptiness and
count, sort descending, check the starting hash, possibly issue the
bodies request, store the headers, and re-issue the headers request when
the slot is still empty. -/
def stepRangeHeaders (st : FetchFullBlockRangeFuture)
    (res : PeerResult (List Header)) : FetchFullBlockRangeFuture :=
  let st1 := { st with requestHeaders := none }
  let st2 :=
    match res with
    | .ok peer hs =>
      let headers := hs.map Header.seal_slow
      if headers.isEmpty ∨ headers.length ≠ st1.count then
        { st1 with penalized := peer :: st1.penalized }
      else
        let sorted := sortHeaders headers
        if sorted.headI.hash ≠ st1.hash then
          { st1 with penalized := peer :: st1.penalized }
        else
          let hashes := sorted.map (fun h : SealedHeader => h.hash)
          let st3 :=
            if !has_bodies_request_started st1 then
              { st1 with requestBodies := some hashes }
            else st1
          { st3 with headers := some sorted }
    | .err => st1
  if st2.headers.isNone then
    { st2 with requestHeaders := some ⟨st2.hash, st2.count, .falling⟩ }
  else st2

/-- The `RangeResponseResult::Body` arm of
`FetchFullBlockRangeFuture::poll`: check the count, store the bodies, and
on a still-empty slot re-issue the bodies request from
`range_block_hashes` when the stored headers provide it. -/
def stepRangeBodies (st : FetchFullBlockRangeFuture)
    (res : PeerResult (List BlockBody)) : FetchFullBlockRangeFuture :=
  let st1 := { st with requestBodies := none }
  let st2 :=
    match res with
    | .ok peer bs =>
      if bs.length ≠ st1.count then
        { st1 with penalized := peer :: st1.penalized }
      else
        { st1 with bodies := some bs }
    | .err => st1
  if st2.bodies.isNone then
    match range_block_hashes st2 with
    | some hashes => { st2 with requestBodies := some hashes }
    | none => st2
  else st2

/-- `RangeResponseResult`: which sub-request of the range fetch completed. -/
inductive RangeResponseResult where
  | header (res : PeerResult (List Header))
  | body (res : PeerResult (List BlockBody))
deriving DecidableEq, Repr

/-- One turn of the range poll loop on one ready sub-response. -/
def rangeStep (st : FetchFullBlockRangeFuture) :
    RangeResponseResult → FetchFullBlockRangeFuture
  | .header res => stepRangeHeaders st res
  | .body res => stepRangeBodies st res

/-- The outer poll loop of `FetchFullBlockRangeFuture`: fold the delivered
responses, returning the assembled blocks as soon as `take_blocks` is
`some`. -/
def runRange :
    FetchFullBlockRangeFuture → List RangeResponseResult →
      Option (List SealedBlock) × FetchFullBlockRangeFuture
  | st, [] => (none, st)
  | st, r :: rs =>
    let st1 := rangeStep st r
    match take_blocks st1 with
    | some blocks => (some blocks, st1)
    | none => runRange st1 rs

/-! ## Helper lemmas: single-block fetch -/

/-- Invariant of the single fetch relative to the requested hash `H`: the
target hash is `H` and the header slot only ever holds a header whose
recomputed hash is `H`. -/
def singleInv (H : Nat) (st : FetchFullBlockFuture) : Prop :=
  st.hash = H ∧ ∀ sh, st.header = some sh → sh.hash = H

theorem singleInv_init (H : Nat) : singleInv H (get_full_block H) := by
  constructor
  · rfl
  · intro sh hsh
    simp [get_full_block] at hsh

theorem singleStep_inv {H : Nat} {st : FetchFullBlockFuture} (r : ResponseResult)
    (hinv : singleInv H st) : singleInv H (singleStep st r) := by
  obtain ⟨hhash, hslot⟩ := hinv
  obtain ⟨hsh, rqh, rqb, hd, bd, pen⟩ := st
  simp only at hhash hslot
  subst hhash
  unfold singleInv singleStep stepHeader stepBody
  cases r with
  | header res =>
    cases res with
    | err => cases hd <;> simp_all
    | ok peer mh =>
      cases mh with
      | none => cases hd <;> simp_all
      | some hdr =>
        cases hd <;> by_cases hne : (Header.seal_slow hdr).hash = hsh <;>
          simp_all
  | body res =>
    cases res with
    | err => cases bd <;> simp_all
    | ok peer mb => cases mb <;> simp_all

theorem take_block_eq_some {st : FetchFullBlockFuture} {blk : SealedBlock}
    (h : take_block st = some blk) :
    st.header = some blk.header ∧ st.body = some blk.body := by
  unfold take_block at h
  rcases hh : st.header with _ | sh <;> rcases hb : st.body with _ | b <;>
    rw [hh, hb] at h <;> simp at h
  subst h
  simp [hh, hb, SealedBlock.new]

theorem runSingle_inv_some {H : Nat} {st : FetchFullBlockFuture}
    {rs : List ResponseResult} {blk : SealedBlock} (hinv : singleInv H st)
    (hrun : (runSingle st rs).1 = some blk) : blk.header.hash = H := by
  induction rs generalizing st with
  | nil => simp [runSingle] at hrun
  | cons r rs ih =>
    have hinv1 := singleStep_inv r hinv
    rw [runSingle] at hrun
    rcases htb : take_block (singleStep st r) with _ | b
    · rw [htb] at hrun
      exact ih hinv1 hrun
    · rw [htb] at hrun
      simp at hrun
      subst hrun
      exact hinv1.2 _ (take_block_eq_some htb).1

theorem foldl_singleStep_inv {H : Nat} {st : FetchFullBlockFuture}
    (rs : List ResponseResult) (hinv : singleInv H st) :
    singleInv H (rs.foldl singleStep st) := by
  induction rs generalizing st with
  | nil => exact hinv
  | cons r rs ih => exact ih (singleStep_inv r hinv)

/-! ## Claim theorems: single-block fetch -/

/-- C2: if the responder answers the header request with a header whose
recomputed hash equals the requested hash `H`, and answers the body
request with a body, then `get_full_block H` completes and yields the
`SealedBlock` made of exactly that (sealed) header and that body. -/
theorem C2_single_happy (H peer1 peer2 : Nat) (h : Header) (b : BlockBody)
    (hh : (Header.seal_slow h).hash = H) :
    (runSingle (get_full_block H)
        [.header (.ok peer1 (some h)), .body (.ok peer2 (some b))]).1 =
      some (SealedBlock.new (Header.seal_slow h) b) := by
  simp [runSingle, singleStep, stepHeader, stepBody, get_full_block, take_block, hh]

theorem C2_single_happy_witness :
    (runSingle (get_full_block (hashHeader ⟨0, 0, 0⟩))
        [.header (.ok 1 (some ⟨0, 0, 0⟩)), .body (.ok 2 (some ⟨[], [], none⟩))]).1 =
      some (SealedBlock.new (Header.seal_slow ⟨0, 0, 0⟩) ⟨[], [], none⟩) :=
  C2_single_happy (hashHeader ⟨0, 0, 0⟩) 1 2 ⟨0, 0, 0⟩ ⟨[], [], none⟩ rfl

/-- C3: a header response whose recomputed hash differs from the target
hash penalizes the responder, is discarded (the slot stays empty), and a
new header request for the same hash is issued; moreover the header slot
only ever holds a header whose hash equals the target, so any block the
single fetch ever yields has header hash equal to the target. -/
theorem C3_header_mismatch :
    (∀ (st : FetchFullBlockFuture) (peer : Nat) (h : Header),
      st.header = none → (Header.seal_slow h).hash ≠ st.hash →
      (stepHeader st (.ok peer (some h))).penalized = peer :: st.penalized ∧
      (stepHeader st (.ok peer (some h))).header = none ∧
      (stepHeader st (.ok peer (some h))).requestHeader = some st.hash) ∧
    (∀ (H : Nat) (rs : List ResponseResult) (blk : SealedBlock),
      (runSingle (get_full_block H) rs).1 = some blk → blk.header.hash = H) ∧
    (∀ (H : Nat) (rs : List ResponseResult) (sh : SealedHeader),
      (rs.foldl singleStep (get_full_block H)).header = some sh → sh.hash = H) := by
  refine ⟨?_, ?_, ?_⟩
  · intro st peer h hnone hne
    obtain ⟨hh, rqh, rqb, hd, bd, pen⟩ := st
    simp only at hnone
    subst hnone
    simp [stepHeader, hne]
  · intro H rs blk hrun
    exact runSingle_inv_some (singleInv_init H) hrun
  · intro H rs sh hsh
    exact (foldl_singleStep_inv rs (singleInv_init H)).2 sh hsh

theorem C3_header_mismatch_witness :
    ((stepHeader (get_full_block 0) (.ok 7 (some ⟨1, 2, 3⟩))).penalized =
        7 :: (get_full_block 0).penalized ∧
      (stepHeader (get_full_block 0) (.ok 7 (some ⟨1, 2, 3⟩))).header = none ∧
      (stepHeader (get_full_block 0) (.ok 7 (some ⟨1, 2, 3⟩))).requestHeader =
        some (get_full_block 0).hash) ∧
    (Header.seal_slow ⟨0, 0, 0⟩).hash = hashHeader ⟨0, 0, 0⟩ :=
  ⟨C3_header_mismatch.1 (get_full_block 0) 7 ⟨1, 2, 3⟩ rfl (by decide),
    C3_header_mismatch.2.2 (hashHeader ⟨0, 0, 0⟩)
      [.header (.ok 1 (some ⟨0, 0, 0⟩))] (Header.seal_slow ⟨0, 0, 0⟩) (by decide)⟩

/-! ## Helper lemmas: range fetch -/

theorem sortHeaders_length (hs : List SealedHeader) :
    (sortHeaders hs).length = hs.length :=
  List.length_insertionSort headerGE hs

theorem sortHeaders_sorted (hs : List SealedHeader) :
    (sortHeaders hs).Sorted headerGE :=
  List.sorted_insertionSort headerGE hs

theorem sortHeaders_ne_nil {hs : List SealedHeader} (h : hs ≠ []) :
    sortHeaders hs ≠ [] := by
  intro hcon
  apply h
  have hlen := sortHeaders_length hs
  rw [hcon] at hlen
  exact List.length_eq_zero.mp hlen.symm

theorem headI_map_hash {hs : List SealedHeader} (h : hs ≠ []) :
    (hs.map (fun x : SealedHeader => x.hash)).headI = hs.headI.hash := by
  cases hs with
  | nil => exact absurd rfl h
  | cons a t => rfl

/-- Invariant of the range fetch relative to the starting hash `H` and the
count `N`: the parameters are constant, the stored headers slot only ever
holds a validated sequence (exactly `N` entries, sorted by descending
block number, nonempty, first recomputed hash equal to `H`), and the
stored bodies slot only ever holds exactly `N` bodies. -/
def rangeInv (H N : Nat) (st : FetchFullBlockRangeFuture) : Prop :=
  st.hash = H ∧ st.count = N ∧
  (∀ hs, st.headers = some hs →
    hs.length = N ∧ hs.Sorted headerGE ∧ hs ≠ [] ∧ hs.headI.hash = H) ∧
  (∀ bs, st.bodies = some bs → bs.length = N)

theorem rangeInv_init (H N : Nat) : rangeInv H N (get_full_block_range H N) := by
  refine ⟨rfl, rfl, ?_, ?_⟩ <;> intro x hx <;> simp [get_full_block_range] at hx


set_option maxHeartbeats 1000000 in
theorem rangeStep_inv {H N : Nat} {st : FetchFullBlockRangeFuture}
    (r : RangeResponseResult) (hinv : rangeInv H N st) :
    rangeInv H N (rangeStep st r) := by
  obtain ⟨hhash, hcount, hhdrs, hbods⟩ := hinv
  obtain ⟨hsh, cnt, rqh, rqb, hdrs, bds, pen⟩ := st
  simp only at hhash hcount hhdrs hbods
  subst hhash
  subst hcount
  cases r with
  | header res =>
    cases res with
    | err => cases hdrs <;> simp_all [rangeInv, rangeStep, stepRangeHeaders]
    | ok peer hs =>
      simp only [rangeInv, rangeStep, stepRangeHeaders]
      by_cases c1 : (List.map Header.seal_slow hs).isEmpty = true ∨
          (List.map Header.seal_slow hs).length ≠ cnt
      · rw [if_pos c1]
        cases hdrs <;> simp_all
      · rw [if_neg c1]
        push_neg at c1
        obtain ⟨cne, clen⟩ := c1
        by_cases c2 : (sortHeaders (List.map Header.seal_slow hs)).headI.hash = hsh
        · rw [if_neg (not_not_intro c2)]
          have hne : List.map Header.seal_slow hs ≠ [] := by
            simpa using cne
          have hlen2 : (sortHeaders (List.map Header.seal_slow hs)).length = cnt := by
            rw [sortHeaders_length]
            exact clen
          have hsort := sortHeaders_sorted (List.map Header.seal_slow hs)
          have hnn := sortHeaders_ne_nil hne
          cases hdrs <;> split <;> simp_all
        · rw [if_pos c2]
          cases hdrs <;> simp_all
  | body res =>
    cases res with
    | err =>
      cases hdrs <;> cases bds <;>
        simp_all [rangeInv, rangeStep, stepRangeBodies, range_block_hashes]
    | ok peer bs =>
      by_cases c : bs.length = cnt <;> cases hdrs <;> cases bds <;>
        simp_all [rangeInv, rangeStep, stepRangeBodies, range_block_hashes]

theorem foldl_rangeStep_inv {H N : Nat} {st : FetchFullBlockRangeFuture}
    (rs : List RangeResponseResult) (hinv : rangeInv H N st) :
    rangeInv H N (rs.foldl rangeStep st) := by
  induction rs generalizing st with
  | nil => exact hinv
  | cons r rs ih => exact ih (rangeStep_inv r hinv)

theorem take_blocks_eq_some {st : FetchFullBlockRangeFuture}
    {blocks : List SealedBlock} (h : take_blocks st = some blocks) :
    ∃ hs bs, st.headers = some hs ∧ st.bodies = some bs ∧
      blocks = List.zipWith SealedBlock.new hs bs := by
  unfold take_blocks at h
  rcases hh : st.headers with _ | hs <;> rcases hb : st.bodies with _ | bs <;>
    rw [hh, hb] at h <;> simp at h
  exact ⟨hs, bs, rfl, rfl, h.symm⟩

theorem runRange_inv_some {H N : Nat} {st : FetchFullBlockRangeFuture}
    {rs : List RangeResponseResult} {blocks : List SealedBlock}
    (hinv : rangeInv H N st) (hrun : (runRange st rs).1 = some blocks) :
    ∃ hs bs, hs.length = N ∧ hs.Sorted headerGE ∧ hs ≠ [] ∧
      hs.headI.hash = H ∧ bs.length = N ∧
      blocks = List.zipWith SealedBlock.new hs bs := by
  induction rs generalizing st with
  | nil => simp [runRange] at hrun
  | cons r rs ih =>
    have hinv1 := rangeStep_inv r hinv
    rw [runRange] at hrun
    rcases htb : take_blocks (rangeStep st r) with _ | bl
    · rw [htb] at hrun
      exact ih hinv1 hrun
    · rw [htb] at hrun
      simp at hrun
      subst hrun
      obtain ⟨hs, bs, hh, hb, hbl⟩ := take_blocks_eq_some htb
      obtain ⟨_, _, hhdrs, hbods⟩ := hinv1
      obtain ⟨l1, l2, l3, l4⟩ := hhdrs hs hh
      exact ⟨hs, bs, l1, l2, l3, l4, hbods bs hb, hbl⟩

theorem map_header_zipWith (hs : List SealedHeader) (bs : List BlockBody)
    (hlen : hs.length = bs.length) :
    (List.zipWith SealedBlock.new hs bs).map SealedBlock.header = hs := by
  induction hs generalizing bs with
  | nil => simp
  | cons h t ih =>
    cases bs with
    | nil => simp at hlen
    | cons b bt =>
      rw [List.zipWith_cons_cons, List.map_cons, ih bt (by simpa using hlen)]
      rfl

/-! ## Claim theorems: range fetch -/

/-- Concrete range-fetch run with `count = 2`: the responder returns two
headers whose block numbers are 10 and 5 (a gap, not parent-linked), the
one numbered 10 matching the starting hash, and then two bodies. All
validation in `poll` passes, so the fetch completes. -/
def cexHeaderTop : Header := ⟨10, 0, 0⟩

def cexHeaderGap : Header := ⟨5, 0, 0⟩

def cexHash : Nat := hashHeader cexHeaderTop

def cexBody : BlockBody := ⟨[], [], none⟩

def cexResponses : List RangeResponseResult :=
  [.header (.ok 3 [cexHeaderGap, cexHeaderTop]), .body (.ok 4 [cexBody, cexBody])]

def cexBlocks : List SealedBlock :=
  [⟨Header.seal_slow cexHeaderTop, cexBody⟩, ⟨Header.seal_slow cexHeaderGap, cexBody⟩]

/-- C1, counterexample: `fetch_block_range(H, 2)` can complete with block
numbers 10, 5 — the code only sorts the headers by descending number and
checks the first hash; it never checks that consecutive numbers differ by
exactly 1, so the claimed "strictly decrease by 1" fails. -/
theorem C1_counterexample :
    (runRange (get_full_block_range cexHash 2) cexResponses).1 = some cexBlocks ∧
    ¬ List.Chain' (fun a b => b.header.header.number + 1 = a.header.header.number)
      cexBlocks := by
  constructor
  · decide
  · simp [cexBlocks, cexHeaderTop, cexHeaderGap, Header.seal_slow]

/-- C1 (amended): for every starting hash `H` and count `N ≥ 1`, when the
range fetch completes it yields exactly `N` blocks whose block numbers
are non-increasing from index 0 to `N - 1`, and whose element 0 has
header hash equal to `H`. -/
theorem C1_range_shape (H N : Nat) (rs : List RangeResponseResult)
    (blocks : List SealedBlock) (hN : 1 ≤ N)
    (hrun : (runRange (get_full_block_range H N) rs).1 = some blocks) :
    blocks.length = N ∧
    blocks.Pairwise (fun a b => b.header.header.number ≤ a.header.header.number) ∧
    blocks.headI.header.hash = H := by
  obtain ⟨hs, bs, l1, l2, l3, l4, l5, hbl⟩ :=
    runRange_inv_some (rangeInv_init H N) hrun
  subst hbl
  have hlen : hs.length = bs.length := by rw [l1, l5]
  refine ⟨?_, ?_, ?_⟩
  · rw [List.length_zipWith, l1, l5, Nat.min_self]
  · have hpw : ((List.zipWith SealedBlock.new hs bs).map SealedBlock.header).Pairwise
        headerGE := by
      rw [map_header_zipWith hs bs hlen]
      exact l2
    rw [List.pairwise_map] at hpw
    exact hpw.imp (fun h => h)
  · rcases hs with _ | ⟨h0, t⟩
    · exact absurd rfl l3
    · rcases bs with _ | ⟨b0, bt⟩
      · simp at l5
        omega
      · exact l4

theorem C1_range_shape_witness :
    cexBlocks.length = 2 ∧
    cexBlocks.Pairwise (fun a b => b.header.header.number ≤ a.header.header.number) ∧
    cexBlocks.headI.header.hash = cexHash :=
  C1_range_shape cexHash 2 cexResponses cexBlocks (by decide) (by decide)

/-- C4, evaluation of `get_full_block_range` at the failing inputs: the
source's `if count == 1 { None } else { Some(get_block_bodies(vec![hash])) }`
defers the bodies request when `count = 1` and launches it (with only the
single starting hash) when `count > 1` — the opposite of its own comment
and of the spec. -/
theorem C4_constructor_eval :
    (get_full_block_range 0 1).requestBodies = none ∧
    (get_full_block_range 0 2).requestBodies = some [0] ∧
    (get_full_block_range 0 1).requestHeaders = some ⟨0, 1, .falling⟩ ∧
    (get_full_block_range 0 2).requestHeaders = some ⟨0, 2, .falling⟩ := by
  decide

/-- C5, evaluation at the failing input (`count = 1`, a valid headers
response, no bodies request in flight and no bodies stored): the headers
are stored but no bodies request is issued, because the inverted
`has_bodies_request_started` makes the guard skip exactly the case the
spec requires; the fetch can then never complete. -/
theorem C5_skipped_bodies_request_eval :
    (get_full_block_range (hashHeader ⟨0, 0, 0⟩) 1).requestBodies = none ∧
    (get_full_block_range (hashHeader ⟨0, 0, 0⟩) 1).bodies = none ∧
    (rangeStep (get_full_block_range (hashHeader ⟨0, 0, 0⟩) 1)
        (.header (.ok 2 [⟨0, 0, 0⟩]))).headers = some [Header.seal_slow ⟨0, 0, 0⟩] ∧
    (rangeStep (get_full_block_range (hashHeader ⟨0, 0, 0⟩) 1)
        (.header (.ok 2 [⟨0, 0, 0⟩]))).requestBodies = none := by
  decide

/-- C6, evaluation at the failing input (`count = 2`): a bodies request
(for the single starting hash) is already in flight at construction,
before any headers response has been received or validated. -/
theorem C6_premature_bodies_request_eval :
    (get_full_block_range 0 2).requestBodies = some [0] ∧
    (get_full_block_range 0 2).headers = none ∧
    range_block_hashes (get_full_block_range 0 2) = none := by
  decide

/-- C7: a headers response that is empty, or whose length differs from
`count`, or whose first entry after descending sort has recomputed hash
different from the starting hash, penalizes the responder, stores
nothing, and re-issues the headers request with unchanged parameters. -/
theorem C7_headers_validation_retry (st : FetchFullBlockRangeFuture)
    (peer : Nat) (hs : List Header) (hnone : st.headers = none)
    (hbad : hs = [] ∨ hs.length ≠ st.count ∨
      (sortHeaders (hs.map Header.seal_slow)).headI.hash ≠ st.hash) :
    (stepRangeHeaders st (.ok peer hs)).penalized = peer :: st.penalized ∧
    (stepRangeHeaders st (.ok peer hs)).headers = none ∧
    (stepRangeHeaders st (.ok peer hs)).requestHeaders =
      some ⟨st.hash, st.count, .falling⟩ := by
  obtain ⟨hsh, cnt, rqh, rqb, hdrs, bds, pen⟩ := st
  simp only at hnone hbad ⊢
  subst hnone
  simp only [stepRangeHeaders]
  by_cases c1 : (List.map Header.seal_slow hs).isEmpty = true ∨
      (List.map Header.seal_slow hs).length ≠ cnt
  · rw [if_pos c1]
    simp
  · rw [if_neg c1]
    have c2 : (sortHeaders (List.map Header.seal_slow hs)).headI.hash ≠ hsh := by
      push_neg at c1
      obtain ⟨cne, clen⟩ := c1
      rcases hbad with h1 | h2 | h3
      · subst h1
        simp at cne
      · rw [List.length_map] at clen
        exact absurd clen h2
      · exact h3
    rw [if_pos c2]
    simp

theorem C7_headers_validation_retry_witness :
    (stepRangeHeaders (get_full_block_range 5 2) (.ok 9 [])).penalized =
      9 :: (get_full_block_range 5 2).penalized ∧
    (stepRangeHeaders (get_full_block_range 5 2) (.ok 9 [])).headers = none ∧
    (stepRangeHeaders (get_full_block_range 5 2) (.ok 9 [])).requestHeaders =
      some ⟨(get_full_block_range 5 2).hash, (get_full_block_range 5 2).count,
        .falling⟩ :=
  C7_headers_validation_retry (get_full_block_range 5 2) 9 [] rfl (Or.inl rfl)

/-- C8: with a validated header sequence stored and no bodies yet, a
bodies response of the wrong length penalizes the responder and re-issues
the bodies request with the hash list recovered from the stored headers;
the headers request slot and the stored headers are untouched (no
re-request of headers). -/
theorem C8_bodies_retry (st : FetchFullBlockRangeFuture) (peer : Nat)
    (bs : List BlockBody) (hs : List SealedHeader)
    (hhs : st.headers = some hs) (hbs : st.bodies = none)
    (hlen : bs.length ≠ st.count) :
    (stepRangeBodies st (.ok peer bs)).penalized = peer :: st.penalized ∧
    (stepRangeBodies st (.ok peer bs)).requestBodies =
      some (hs.map (fun h : SealedHeader => h.hash)) ∧
    (stepRangeBodies st (.ok peer bs)).requestHeaders = st.requestHeaders ∧
    (stepRangeBodies st (.ok peer bs)).headers = some hs := by
  obtain ⟨hsh, cnt, rqh, rqb, hdrs, bds, pen⟩ := st
  simp only at hhs hbs hlen ⊢
  subst hhs
  subst hbs
  simp [stepRangeBodies, range_block_hashes, hlen]

def c8State : FetchFullBlockRangeFuture :=
  { hash := hashHeader ⟨0, 0, 0⟩
    count := 1
    requestHeaders := none
    requestBodies := some [hashHeader ⟨0, 0, 0⟩]
    headers := some [Header.seal_slow ⟨0, 0, 0⟩]
    bodies := none
    penalized := [] }

theorem C8_bodies_retry_witness :
    (stepRangeBodies c8State (.ok 4 [])).penalized = 4 :: c8State.penalized ∧
    (stepRangeBodies c8State (.ok 4 [])).requestBodies =
      some ([Header.seal_slow ⟨0, 0, 0⟩].map (fun h : SealedHeader => h.hash)) ∧
    (stepRangeBodies c8State (.ok 4 [])).requestHeaders = c8State.requestHeaders ∧
    (stepRangeBodies c8State (.ok 4 [])).headers =
      some [Header.seal_slow ⟨0, 0, 0⟩] :=
  C8_bodies_retry c8State 4 [] [Header.seal_slow ⟨0, 0, 0⟩] rfl rfl (by decide)

/-- C9, counterexample: at `get_full_block_range 0 2` a bodies
sub-request (for `[0]`) is in flight at construction with no headers
stored; when that sub-request fails at the transport level, no responder
is penalized (as claimed) but no bodies request is re-issued either —
`range_block_hashes` is `none`, so the retry at the `if let Some` is
skipped and the bodies request slot stays empty, refuting the claim's
universal "an identical sub-request is re-issued". -/
theorem C9_counterexample :
    (get_full_block_range 0 2).requestBodies = some [0] ∧
    (get_full_block_range 0 2).headers = none ∧
    (stepRangeBodies (get_full_block_range 0 2) .err).penalized =
      (get_full_block_range 0 2).penalized ∧
    (stepRangeBodies (get_full_block_range 0 2) .err).requestBodies = none := by
  decide

/-- C9 (amended): a transport-level error never adds to the penalized
list, in any of the four sub-request kinds; the same sub-request is
re-issued — the header (resp. headers-range) request with identical
parameters when no header is stored, the single body request with the
same hash, and the bodies-range request with the hash list of the stored
validated headers — except that a range bodies request failing while no
validated header sequence is stored is dropped: no bodies request is
re-issued in that case. -/
theorem C9_transport_failures :
    (∀ st : FetchFullBlockFuture,
      (stepHeader st .err).penalized = st.penalized ∧
      (st.header = none → (stepHeader st .err).requestHeader = some st.hash)) ∧
    (∀ st : FetchFullBlockFuture,
      (stepBody st .err).penalized = st.penalized ∧
      (st.body = none → (stepBody st .err).requestBody = some st.hash)) ∧
    (∀ st : FetchFullBlockRangeFuture,
      (stepRangeHeaders st .err).penalized = st.penalized ∧
      (st.headers = none → (stepRangeHeaders st .err).requestHeaders =
        some ⟨st.hash, st.count, .falling⟩)) ∧
    (∀ st : FetchFullBlockRangeFuture,
      (stepRangeBodies st .err).penalized = st.penalized ∧
      (∀ hs, st.headers = some hs → st.bodies = none →
        (stepRangeBodies st .err).requestBodies =
          some (hs.map (fun h : SealedHeader => h.hash))) ∧
      (st.headers = none → (stepRangeBodies st .err).requestBodies = none)) := by
  refine ⟨?_, ?_, ?_, ?_⟩
  · intro st
    obtain ⟨hsh, rqh, rqb, hd, bd, pen⟩ := st
    constructor
    · cases hd <;> simp [stepHeader]
    · intro hnone
      simp only at hnone
      subst hnone
      simp [stepHeader]
  · intro st
    obtain ⟨hsh, rqh, rqb, hd, bd, pen⟩ := st
    constructor
    · cases bd <;> simp [stepBody]
    · intro hnone
      simp only at hnone
      subst hnone
      simp [stepBody]
  · intro st
    obtain ⟨hsh, cnt, rqh, rqb, hdrs, bds, pen⟩ := st
    constructor
    · cases hdrs <;> simp [stepRangeHeaders]
    · intro hnone
      simp only at hnone
      subst hnone
      simp [stepRangeHeaders]
  · intro st
    obtain ⟨hsh, cnt, rqh, rqb, hdrs, bds, pen⟩ := st
    refine ⟨?_, ?_, ?_⟩
    · cases hdrs <;> cases bds <;> simp [stepRangeBodies, range_block_hashes]
    · intro hs hhs hbs
      simp only at hhs hbs
      subst hhs
      subst hbs
      simp [stepRangeBodies, range_block_hashes]
    · intro hnone
      simp only at hnone
      subst hnone
      cases bds <;> simp [stepRangeBodies, range_block_hashes]

def c9RangeState : FetchFullBlockRangeFuture :=
  { hash := 0
    count := 1
    requestHeaders := none
    requestBodies := none
    headers := some [Header.seal_slow ⟨0, 0, 0⟩]
    bodies := none
    penalized := [] }

theorem C9_transport_failures_witness :
    ((stepHeader (get_full_block 3) .err).penalized = (get_full_block 3).penalized ∧
      (stepHeader (get_full_block 3) .err).requestHeader =
        some (get_full_block 3).hash) ∧
    ((stepBody (get_full_block 3) .err).penalized = (get_full_block 3).penalized ∧
      (stepBody (get_full_block 3) .err).requestBody =
        some (get_full_block 3).hash) ∧
    ((stepRangeHeaders (get_full_block_range 4 2) .err).penalized =
        (get_full_block_range 4 2).penalized ∧
      (stepRangeHeaders (get_full_block_range 4 2) .err).requestHeaders =
        some ⟨(get_full_block_range 4 2).hash, (get_full_block_range 4 2).count,
          .falling⟩) ∧
    ((stepRangeBodies c9RangeState .err).penalized = c9RangeState.penalized ∧
      (stepRangeBodies c9RangeState .err).requestBodies =
        some ([Header.seal_slow ⟨0, 0, 0⟩].map (fun h : SealedHeader => h.hash))) ∧
    (stepRangeBodies (get_full_block_range 4 2) .err).requestBodies = none :=
  ⟨⟨(C9_transport_failures.1 (get_full_block 3)).1,
      (C9_transport_failures.1 (get_full_block 3)).2 rfl⟩,
    ⟨(C9_transport_failures.2.1 (get_full_block 3)).1,
      (C9_transport_failures.2.1 (get_full_block 3)).2 rfl⟩,
    ⟨(C9_transport_failures.2.2.1 (get_full_block_range 4 2)).1,
      (C9_transport_failures.2.2.1 (get_full_block_range 4 2)).2 rfl⟩,
    ⟨(C9_transport_failures.2.2.2 c9RangeState).1,
      (C9_transport_failures.2.2.2 c9RangeState).2.1
        [Header.seal_slow ⟨0, 0, 0⟩] rfl rfl⟩,
    (C9_transport_failures.2.2.2 (get_full_block_range 4 2)).2.2 rfl⟩

/-- C10: in every state reachable by the range fetch, a stored header
sequence has exactly `count` entries, is sorted by descending block
number, and its first entry has recomputed hash equal to the target hash;
hence `range_block_hashes`, when `some`, has exactly `count` hashes and
starts with the target hash. -/
theorem C10_headers_slot_invariant (H N : Nat) (rs : List RangeResponseResult) :
    (∀ hs, (rs.foldl rangeStep (get_full_block_range H N)).headers = some hs →
      hs.length = N ∧ hs.Sorted headerGE ∧ hs.headI.hash = H) ∧
    (∀ l, range_block_hashes (rs.foldl rangeStep (get_full_block_range H N)) =
        some l → l.length = N ∧ l.headI = H) := by
  obtain ⟨_, _, hhdrs, _⟩ := foldl_rangeStep_inv rs (rangeInv_init H N)
  constructor
  · intro hs hh
    obtain ⟨l1, l2, l3, l4⟩ := hhdrs hs hh
    exact ⟨l1, l2, l4⟩
  · intro l hl
    unfold range_block_hashes at hl
    rcases hh : (rs.foldl rangeStep (get_full_block_range H N)).headers with _ | hs
    · rw [hh] at hl
      simp at hl
    · rw [hh] at hl
      simp at hl
      obtain ⟨l1, l2, l3, l4⟩ := hhdrs hs hh
      subst hl
      constructor
      · rw [List.length_map]
        exact l1
      · rw [headI_map_hash l3]
        exact l4

theorem C10_headers_slot_invariant_witness :
    [Header.seal_slow ⟨0, 0, 0⟩].length = 1 ∧
    [Header.seal_slow ⟨0, 0, 0⟩].Sorted headerGE ∧
    [Header.seal_slow ⟨0, 0, 0⟩].headI.hash = hashHeader ⟨0, 0, 0⟩ :=
  (C10_headers_slot_invariant (hashHeader ⟨0, 0, 0⟩) 1
      [.header (.ok 2 [⟨0, 0, 0⟩])]).1 [Header.seal_slow ⟨0, 0, 0⟩] (by decide)

end FullBlock
